import Mathlib

/-!
Verification of git-clean (src/main.go) against its specification.

The development shallowly embeds the two cores of the program:

* the prefix-annotating stream decorator `prefixWriter` (main.go lines
  117-157), modelled byte-for-byte over `List Nat` with `10` for the
  newline byte, against an abstract destination sink that may accept or
  reject each write; and
* the branch-cleanup orchestrator `main` (main.go lines 25-48) together
  with its helpers `getDefaultBranch`, `getCurrentBranch`,
  `getMergedBranches`, `deleteBranch` and the command runner `runCmd`
  (lines 50-115), modelled over `List Char` with the external `git`
  invocations abstracted into an environment of command responses.

The destination sink records every write the prefixWriter performs as an
event tagged with the call site that produced it (the prefix write at
line 152 or the content write at line 156); the tag is pure
instrumentation and no modelled behaviour depends on it.
-/

namespace GitClean

/-! ### The prefixWriter (main.go lines 117-157)

Go bytes are modelled as `Nat`; the newline byte '\n' is `10`.
An `io.Writer` destination is modelled as a schedule of responses:
the k-th `Write` call on the destination either accepts the payload in
full (`WResp.ok`, returning `(len p, nil)`), or rejects it accepting
only `a` bytes (`WResp.fail a`, returning `(a, err)` with a non-nil
error).  Indices beyond the end of the schedule list accept. -/

/-- Response of the destination sink to one `Write` call: accept in
full, or fail having accepted `a` bytes of the payload. -/
inductive WResp where
  | ok : WResp
  | fail : Nat → WResp
deriving DecidableEq

/-- One write event observed by the destination: the payload it
received, tagged with whether it came from the prefix write
(main.go line 152) or the content write (line 156). -/
structure Ev where
  isPfx : Bool
  bytes : List Nat
deriving DecidableEq

/-- State of the destination sink: the events received so far and the
index of the next `Write` call (used to look up the schedule). -/
structure SinkSt where
  out : List Ev
  k : Nat
deriving DecidableEq

/-- The response the schedule gives to the k-th write. -/
def schedResp (sched : List WResp) (k : Nat) : WResp :=
  sched.getD k WResp.ok

/-- One `Write` call on the destination sink: returns the Go pair
`(n, err)` (with `err` as a `Bool`) and the new sink state. -/
def sinkWrite (sched : List WResp) (s : SinkSt) (tag : Bool) (p : List Nat) :
    (Nat × Bool) × SinkSt :=
  match schedResp sched s.k with
  | WResp.ok => ((p.length, false), ⟨s.out ++ [⟨tag, p⟩], s.k + 1⟩)
  | WResp.fail a =>
      ((min a p.length, true), ⟨s.out ++ [⟨tag, p.take (min a p.length)⟩], s.k + 1⟩)

/-- `prefixWriter.writeOnce` (main.go lines 150-157): if the writer is
not mid-line, first write the prefix (returning `(0, err)` if that
fails), then write the span and return the destination's result. -/
def writeOnce (sched : List WResp) (pfx : List Nat) (started : Bool)
    (s : SinkSt) (p : List Nat) : (Nat × Bool) × SinkSt :=
  if started then sinkWrite sched s false p
  else
    match sinkWrite sched s true pfx with
    | ((_, e1), s1) =>
        if e1 then ((0, true), s1) else sinkWrite sched s1 false p

/-- The scan-and-slice step of `prefixWriter.Write` (main.go lines
125-131 and 134/140): split off the maximal span up to and including
the first newline.  `(span, some rest)` when a newline is found
(`span` ends with `10`); `(l, none)` when `l` has no newline. -/
def splitSpan : List Nat → List Nat × Option (List Nat)
  | [] => ([], none)
  | b :: bs =>
      if b = 10 then ([10], some bs)
      else (b :: (splitSpan bs).1, (splitSpan bs).2)

/-- The loop of `prefixWriter.Write` (main.go lines 124-147).
`consumed` is the Go variable `start`; the returned triple is
`((n, err), started, sink)`.  The `fuel` argument only makes the
recursion structural: every iteration consumes at least one byte of
`rem`, so any `fuel ≥ rem.length` (as supplied by `pwWrite`) makes the
fuel-exhaustion branch unreachable. -/
def writeLoopF (sched : List WResp) (pfx : List Nat) :
    Nat → Bool → SinkSt → List Nat → Nat → (Nat × Bool) × Bool × SinkSt
  | _, started, s, [], consumed => ((consumed, false), started, s)
  | 0, started, s, _ :: _, consumed => ((consumed, false), started, s)
  | fuel + 1, started, s, b :: bs, consumed =>
      match splitSpan (b :: bs) with
      | (span, none) =>
          match writeOnce sched pfx started s span with
          | ((n, e), s1) =>
              ((consumed + n, e), (if e then started else true), s1)
      | (span, some rest) =>
          match writeOnce sched pfx started s span with
          | ((n, e), s1) =>
              if e then ((consumed + n, e), started, s1)
              else writeLoopF sched pfx fuel false s1 rest (consumed + span.length)

/-- `prefixWriter.Write` (main.go lines 123-148): one call with data
`p`, from mid-line state `started`, against sink state `s`. -/
def pwWrite (sched : List WResp) (pfx : List Nat) (started : Bool)
    (s : SinkSt) (p : List Nat) : (Nat × Bool) × Bool × SinkSt :=
  writeLoopF sched pfx p.length started s p 0

/-- Feed a sequence of `Write` calls (one chunk per call) to the
writer, threading its mid-line state and the sink state. -/
def feed (sched : List WResp) (pfx : List Nat) :
    Bool × SinkSt → List (List Nat) → Bool × SinkSt
  | st, [] => st
  | (started, s), c :: cs =>
      match pwWrite sched pfx started s c with
      | (_, started1, s1) => feed sched pfx (started1, s1) cs

/-- A destination that has received nothing. -/
def freshSink : SinkSt := ⟨[], 0⟩

/-- Events delivered to an all-accepting destination when the chunks
are fed, one `Write` call each, to a fresh prefixWriter. -/
def destEvents (pfx : List Nat) (chunks : List (List Nat)) : List Ev :=
  (feed [] pfx (false, freshSink) chunks).2.out

/-- All bytes delivered to the destination, in order. -/
def bytesOf : List Ev → List Nat
  | [] => []
  | e :: es => e.bytes ++ bytesOf es

/-- Number of prefix emissions among the events. -/
def pfxCount : List Ev → Nat
  | [] => 0
  | e :: es => (if e.isPfx then 1 else 0) + pfxCount es

/-- The content (non-prefix) bytes delivered, in order. -/
def contentBytes : List Ev → List Nat
  | [] => []
  | e :: es => (if e.isPfx then [] else e.bytes) ++ contentBytes es

/-- Bytes delivered to an all-accepting destination for a chunk
sequence fed to a fresh prefixWriter. -/
def destBytes (pfx : List Nat) (chunks : List (List Nat)) : List Nat :=
  bytesOf (destEvents pfx chunks)

/-- Concatenation of the chunks of a `Write`-call sequence. -/
def concatChunks : List (List Nat) → List Nat
  | [] => []
  | c :: cs => c ++ concatChunks cs

/-- Split data into its maximal newline-terminated spans plus the
trailing partial line, exactly as the `Write` loop slices it
(fuel as in `writeLoopF`). -/
def linesSplitF : Nat → List Nat → List (List Nat)
  | _, [] => []
  | 0, _ :: _ => []
  | fuel + 1, b :: bs =>
      match splitSpan (b :: bs) with
      | (span, none) => [span]
      | (span, some rest) => span :: linesSplitF fuel rest

/-- The lines (newline-terminated spans plus trailing partial) of a
byte sequence. -/
def linesSplit (data : List Nat) : List (List Nat) :=
  linesSplitF data.length data

/-- Each line preceded by exactly one copy of the prefix, concatenated. -/
def joinPre (pfx : List Nat) : List (List Nat) → List Nat
  | [] => []
  | l :: ls => pfx ++ l ++ joinPre pfx ls

/-! Reference byte-at-a-time model of the emission discipline, used as
the proof bridge between a chunked run and a single-pass run: before a
byte is forwarded the prefix is emitted iff the writer is at a line
start, and the byte leaves the writer mid-line iff it is not a newline.
Its agreement with the embedded code is proved (`writeLoopF_allok`),
never assumed. -/

/-- One byte of the reference emission discipline; the state is
(mid-line flag, bytes emitted, prefix emissions). -/
def emitStep (pfx : List Nat) (st : Bool × List Nat × Nat) (b : Nat) :
    Bool × List Nat × Nat :=
  ((if b = 10 then false else true),
   st.2.1 ++ (if st.1 then [] else pfx) ++ [b],
   st.2.2 + (if st.1 then 0 else 1))

/-- Run the reference emission discipline over a byte sequence. -/
def emitRun (pfx : List Nat) (started : Bool) (data : List Nat) :
    Bool × List Nat × Nat :=
  data.foldl (emitStep pfx) (started, [], 0)

example : destEvents [65] [[97, 10, 98, 10]] =
    [⟨true, [65]⟩, ⟨false, [97, 10]⟩, ⟨true, [65]⟩, ⟨false, [98, 10]⟩] := by
  decide

example : destBytes [65] [[104], [119, 10]] = [65, 104, 119, 10] := by decide

example : (emitRun [65] false [104, 119, 10]).2.1 = [65, 104, 119, 10] := by decide

example : linesSplit [97, 10, 98] = [[97, 10], [98]] := by decide

/-! ### Structural lemmas about the event lists and the span scan -/

theorem bytesOf_append (a b : List Ev) :
    bytesOf (a ++ b) = bytesOf a ++ bytesOf b := by
  induction a with
  | nil => simp [bytesOf]
  | cons e es ih => simp [bytesOf, ih]

theorem pfxCount_append (a b : List Ev) :
    pfxCount (a ++ b) = pfxCount a + pfxCount b := by
  induction a with
  | nil => simp [pfxCount]
  | cons e es ih => simp [pfxCount, ih]; omega

theorem contentBytes_append (a b : List Ev) :
    contentBytes (a ++ b) = contentBytes a ++ contentBytes b := by
  induction a with
  | nil => simp [contentBytes]
  | cons e es ih => simp [contentBytes, ih]

theorem sinkWrite_nil (s : SinkSt) (tag : Bool) (p : List Nat) :
    sinkWrite [] s tag p = ((p.length, false), ⟨s.out ++ [⟨tag, p⟩], s.k + 1⟩) :=
  rfl

theorem writeOnce_allok (pfx : List Nat) (started : Bool) (s : SinkSt)
    (p : List Nat) :
    writeOnce [] pfx started s p =
      ((p.length, false),
       ⟨s.out ++ (if started then [⟨false, p⟩] else [⟨true, pfx⟩, ⟨false, p⟩]),
        s.k + (if started then 1 else 2)⟩) := by
  cases started <;> simp [writeOnce, sinkWrite_nil]

theorem splitSpan_eq_none : ∀ {l sp : List Nat},
    splitSpan l = (sp, none) → sp = l ∧ 10 ∉ l := by
  intro l
  induction l with
  | nil =>
      intro sp h
      simp [splitSpan] at h
      simp [h]
  | cons b bs ih =>
      intro sp h
      by_cases hb : b = 10
      · subst hb
        simp [splitSpan] at h
      · simp only [splitSpan, if_neg hb, Prod.mk.injEq] at h
        obtain ⟨h1, h2⟩ := h
        have hbs : splitSpan bs = ((splitSpan bs).1, none) := by
          rw [Prod.ext_iff]
          exact ⟨rfl, h2⟩
        obtain ⟨ha, hnb⟩ := ih hbs
        subst h1
        constructor
        · rw [ha]
        · intro hm
          rcases List.mem_cons.mp hm with h10 | h10
          · exact hb h10.symm
          · exact hnb h10

theorem splitSpan_eq_some : ∀ {l sp r : List Nat},
    splitSpan l = (sp, some r) →
    l = sp ++ r ∧ ∃ m, sp = m ++ [10] ∧ 10 ∉ m := by
  intro l
  induction l with
  | nil => intro sp r h; simp [splitSpan] at h
  | cons b bs ih =>
      intro sp r h
      by_cases hb : b = 10
      · subst hb
        simp [splitSpan] at h
        obtain ⟨h1, h2⟩ := h
        subst h1
        subst h2
        exact ⟨rfl, [], by simp, by simp⟩
      · simp only [splitSpan, if_neg hb, Prod.mk.injEq] at h
        obtain ⟨h1, h2⟩ := h
        have hbs : splitSpan bs = ((splitSpan bs).1, some r) := by
          rw [Prod.ext_iff]
          exact ⟨rfl, h2⟩
        obtain ⟨hl, m, hm, hnm⟩ := ih hbs
        subst h1
        refine ⟨by rw [List.cons_append, ← hl], b :: m, by rw [hm]; rfl, ?_⟩
        intro hmem
        rcases List.mem_cons.mp hmem with h10 | h10
        · exact hb h10.symm
        · exact hnm h10

/-! ### The reference emission discipline -/

theorem emitRun_shift (pfx : List Nat) :
    ∀ (data : List Nat) (st : Bool) (out : List Nat) (c : Nat),
      data.foldl (emitStep pfx) (st, out, c) =
        ((emitRun pfx st data).1,
         out ++ (emitRun pfx st data).2.1,
         c + (emitRun pfx st data).2.2) := by
  intro data
  induction data with
  | nil => intro st out c; simp [emitRun]
  | cons b bs ih =>
      intro st out c
      simp only [List.foldl_cons, emitRun, emitStep]
      rw [ih, ih]
      simp [List.append_assoc, Nat.add_assoc]

theorem emitRun_append (pfx : List Nat) (st : Bool) (a c : List Nat) :
    emitRun pfx st (a ++ c) =
      ((emitRun pfx (emitRun pfx st a).1 c).1,
       (emitRun pfx st a).2.1 ++ (emitRun pfx (emitRun pfx st a).1 c).2.1,
       (emitRun pfx st a).2.2 + (emitRun pfx (emitRun pfx st a).1 c).2.2) := by
  have h : List.foldl (emitStep pfx) (st, ([] : List Nat), 0) a =
      ((emitRun pfx st a).1, (emitRun pfx st a).2.1, (emitRun pfx st a).2.2) := by
    simp [emitRun]
  rw [emitRun, List.foldl_append, h, emitRun_shift]

theorem emitRun_no_nl (pfx : List Nat) :
    ∀ {l : List Nat}, 10 ∉ l → l ≠ [] → ∀ started,
      emitRun pfx started l =
        (true, (if started then [] else pfx) ++ l, if started then 0 else 1) := by
  intro l
  induction l with
  | nil => intro _ h; exact absurd rfl h
  | cons b bs ih =>
      intro hmem _ started
      have hb : ¬ b = 10 := by
        intro h
        exact hmem (by rw [h]; exact List.mem_cons_self 10 bs)
      by_cases hbs : bs = []
      · subst hbs
        cases started <;> simp [emitRun, emitStep, hb]
      · have hmem' : 10 ∉ bs := fun h => hmem (List.mem_cons_of_mem _ h)
        simp only [emitRun, List.foldl_cons, emitStep, if_neg hb]
        rw [emitRun_shift]
        rw [ih hmem' hbs]
        cases started <;> simp

theorem emitRun_span (pfx : List Nat) :
    ∀ {m : List Nat}, 10 ∉ m → ∀ started,
      emitRun pfx started (m ++ [10]) =
        (false, (if started then [] else pfx) ++ m ++ [10],
         if started then 0 else 1) := by
  intro m
  induction m with
  | nil => intro _ started; cases started <;> simp [emitRun, emitStep]
  | cons b ms ih =>
      intro hmem started
      have hb : ¬ b = 10 := by
        intro h
        exact hmem (by rw [h]; exact List.mem_cons_self 10 ms)
      have hmem' : 10 ∉ ms := fun h => hmem (List.mem_cons_of_mem _ h)
      simp only [List.cons_append, emitRun, List.foldl_cons, emitStep, if_neg hb]
      rw [emitRun_shift]
      rw [ih hmem']
      cases started <;> simp

/-! ### Correspondence between the embedded `Write` loop and the
reference emission discipline, over an all-accepting destination -/

theorem writeLoopF_cons (sched : List WResp) (pfx : List Nat) (fuel : Nat)
    (started : Bool) (s : SinkSt) (b : Nat) (bs : List Nat) (consumed : Nat) :
    writeLoopF sched pfx (fuel + 1) started s (b :: bs) consumed =
      match splitSpan (b :: bs) with
      | (span, none) =>
          match writeOnce sched pfx started s span with
          | ((n, e), s1) => ((consumed + n, e), (if e then started else true), s1)
      | (span, some rest) =>
          match writeOnce sched pfx started s span with
          | ((n, e), s1) =>
              if e then ((consumed + n, e), started, s1)
              else writeLoopF sched pfx fuel false s1 rest (consumed + span.length) :=
  rfl

theorem writeLoopF_allok (pfx : List Nat) :
    ∀ (fuel : Nat) (rem : List Nat), rem.length ≤ fuel →
      ∀ (started : Bool) (s : SinkSt) (consumed : Nat),
        ∃ ext : List Ev,
          writeLoopF [] pfx fuel started s rem consumed =
            ((consumed + rem.length, false), (emitRun pfx started rem).1,
             ⟨s.out ++ ext, s.k + ext.length⟩) ∧
          bytesOf ext = (emitRun pfx started rem).2.1 ∧
          pfxCount ext = (emitRun pfx started rem).2.2 := by
  intro fuel
  induction fuel with
  | zero =>
      intro rem hlen started s consumed
      cases rem with
      | nil =>
          refine ⟨[], ?_, ?_, ?_⟩ <;> simp [writeLoopF, emitRun, bytesOf, pfxCount]
      | cons b bs => simp at hlen
  | succ fuel ih =>
      intro rem hlen started s consumed
      cases rem with
      | nil =>
          refine ⟨[], ?_, ?_, ?_⟩ <;> simp [writeLoopF, emitRun, bytesOf, pfxCount]
      | cons b bs =>
          rcases hsp : splitSpan (b :: bs) with ⟨span, ro⟩
          cases ro with
          | none =>
              obtain ⟨hspan, hnl⟩ := splitSpan_eq_none hsp
              subst hspan
              have hemit := emitRun_no_nl pfx hnl (List.cons_ne_nil b bs)
              cases started with
              | false =>
                  refine ⟨[⟨true, pfx⟩, ⟨false, b :: bs⟩], ?_, ?_, ?_⟩
                  · rw [writeLoopF_cons, hsp]
                    simp [writeOnce_allok, hemit]
                  · simp [bytesOf, hemit]
                  · simp [pfxCount, hemit]
              | true =>
                  refine ⟨[⟨false, b :: bs⟩], ?_, ?_, ?_⟩
                  · rw [writeLoopF_cons, hsp]
                    simp [writeOnce_allok, hemit]
                  · simp [bytesOf, hemit]
                  · simp [pfxCount, hemit]
          | some rest =>
              obtain ⟨hl, m, hm, hnm⟩ := splitSpan_eq_some hsp
              subst hm
              have htot : (b :: bs).length = (m ++ [10]).length + rest.length := by
                rw [hl, List.length_append]
              have hlen2 : rest.length ≤ fuel := by
                simp only [List.length_append, List.length_cons, List.length_nil] at htot hlen
                omega
              cases started with
              | false =>
                  obtain ⟨ext2, hrec, hrecB, hrecC⟩ :=
                    ih rest hlen2 false
                      ⟨s.out ++ [⟨true, pfx⟩, ⟨false, m ++ [10]⟩], s.k + 2⟩
                      (consumed + (m ++ [10]).length)
                  have hdec : emitRun pfx false (b :: bs) =
                      ((emitRun pfx false rest).1,
                       (pfx ++ (m ++ [10])) ++ (emitRun pfx false rest).2.1,
                       1 + (emitRun pfx false rest).2.2) := by
                    rw [hl, emitRun_append, emitRun_span pfx hnm]
                    simp
                  refine ⟨⟨true, pfx⟩ :: ⟨false, m ++ [10]⟩ :: ext2, ?_, ?_, ?_⟩
                  · rw [writeLoopF_cons, hsp]
                    simp only [writeOnce_allok]
                    simp only [List.length_append, List.length_cons,
                      List.length_nil] at hrec
                    simp [hrec, hdec, htot, List.append_assoc]
                    omega
                  · simp [bytesOf, bytesOf_append, hrecB, hdec, List.append_assoc]
                  · simp [pfxCount, pfxCount_append, hrecC, hdec]
              | true =>
                  obtain ⟨ext2, hrec, hrecB, hrecC⟩ :=
                    ih rest hlen2 false
                      ⟨s.out ++ [⟨false, m ++ [10]⟩], s.k + 1⟩
                      (consumed + (m ++ [10]).length)
                  have hdec : emitRun pfx true (b :: bs) =
                      ((emitRun pfx false rest).1,
                       (m ++ [10]) ++ (emitRun pfx false rest).2.1,
                       (emitRun pfx false rest).2.2) := by
                    rw [hl, emitRun_append, emitRun_span pfx hnm]
                    simp
                  refine ⟨⟨false, m ++ [10]⟩ :: ext2, ?_, ?_, ?_⟩
                  · rw [writeLoopF_cons, hsp]
                    simp only [writeOnce_allok]
                    simp only [List.length_append, List.length_cons,
                      List.length_nil] at hrec
                    simp [hrec, hdec, htot, List.append_assoc]
                    omega
                  · simp [bytesOf, bytesOf_append, hrecB, hdec, List.append_assoc]
                  · simp [pfxCount, pfxCount_append, hrecC, hdec]

theorem feed_allok (pfx : List Nat) :
    ∀ (chunks : List (List Nat)) (started : Bool) (s : SinkSt),
      ∃ ext : List Ev,
        feed [] pfx (started, s) chunks =
          ((emitRun pfx started (concatChunks chunks)).1,
           ⟨s.out ++ ext, s.k + ext.length⟩) ∧
        bytesOf ext = (emitRun pfx started (concatChunks chunks)).2.1 ∧
        pfxCount ext = (emitRun pfx started (concatChunks chunks)).2.2 := by
  intro chunks
  induction chunks with
  | nil =>
      intro started s
      refine ⟨[], ?_, ?_, ?_⟩ <;>
        simp [feed, concatChunks, emitRun, bytesOf, pfxCount]
  | cons c cs ih =>
      intro started s
      obtain ⟨ext1, h1, h1b, h1c⟩ := writeLoopF_allok pfx c.length c le_rfl started s 0
      obtain ⟨ext2, h2, h2b, h2c⟩ :=
        ih (emitRun pfx started c).1 ⟨s.out ++ ext1, s.k + ext1.length⟩
      have hdec := emitRun_append pfx started c (concatChunks cs)
      refine ⟨ext1 ++ ext2, ?_, ?_, ?_⟩
      · simp only [feed, pwWrite]
        rw [h1]
        simp only [h2]
        simp [concatChunks, hdec, List.append_assoc, List.length_append]
        omega
      · simp [concatChunks, bytesOf_append, h1b, h2b, hdec]
      · simp [concatChunks, pfxCount_append, h1c, h2c, hdec]

theorem linesSplitF_cons (fuel : Nat) (b : Nat) (bs : List Nat) :
    linesSplitF (fuel + 1) (b :: bs) =
      match splitSpan (b :: bs) with
      | (span, none) => [span]
      | (span, some rest) => span :: linesSplitF fuel rest :=
  rfl

theorem emitRun_linesF (pfx : List Nat) :
    ∀ (fuel : Nat) (data : List Nat), data.length ≤ fuel →
      (emitRun pfx false data).2.1 = joinPre pfx (linesSplitF fuel data) ∧
      (emitRun pfx false data).2.2 = (linesSplitF fuel data).length := by
  intro fuel
  induction fuel with
  | zero =>
      intro data hlen
      cases data with
      | nil => refine ⟨?_, ?_⟩ <;> simp [emitRun, linesSplitF, joinPre]
      | cons b bs => simp at hlen
  | succ fuel ih =>
      intro data hlen
      cases data with
      | nil => refine ⟨?_, ?_⟩ <;> simp [emitRun, linesSplitF, joinPre]
      | cons b bs =>
          rcases hsp : splitSpan (b :: bs) with ⟨span, ro⟩
          cases ro with
          | none =>
              obtain ⟨hspan, hnl⟩ := splitSpan_eq_none hsp
              subst hspan
              have hemit := emitRun_no_nl pfx hnl (List.cons_ne_nil b bs) false
              rw [linesSplitF_cons, hsp]
              refine ⟨?_, ?_⟩ <;> simp [hemit, joinPre]
          | some rest =>
              obtain ⟨hl, m, hm, hnm⟩ := splitSpan_eq_some hsp
              subst hm
              have htot : (b :: bs).length = (m ++ [10]).length + rest.length := by
                rw [hl, List.length_append]
              have hlen2 : rest.length ≤ fuel := by
                simp only [List.length_append, List.length_cons,
                  List.length_nil] at htot hlen
                omega
              obtain ⟨ihB, ihC⟩ := ih rest hlen2
              have hdec : emitRun pfx false (b :: bs) =
                  ((emitRun pfx false rest).1,
                   (pfx ++ (m ++ [10])) ++ (emitRun pfx false rest).2.1,
                   1 + (emitRun pfx false rest).2.2) := by
                rw [hl, emitRun_append, emitRun_span pfx hnm]
                simp
              rw [linesSplitF_cons, hsp]
              refine ⟨?_, ?_⟩ <;> simp [hdec, joinPre, ihB, ihC, List.append_assoc]
              omega

/-! ### Claims about the prefixWriter over an all-accepting destination -/

/-- Claim C1: in every sequence of `Write` calls in which the
destination accepts every write, each line delivered to the destination
is preceded by exactly one emission of the prefix, no matter how the
caller's bytes are split across `Write` calls: the bytes the
destination receives are exactly the lines of the concatenated input,
each preceded by one copy of the prefix, and the number of prefix-write
events equals the number of lines. -/
theorem every_line_one_pfx (pfx : List Nat) (chunks : List (List Nat)) :
    destBytes pfx chunks = joinPre pfx (linesSplit (concatChunks chunks)) ∧
    pfxCount (destEvents pfx chunks) = (linesSplit (concatChunks chunks)).length := by
  obtain ⟨ext, h, hB, hC⟩ := feed_allok pfx chunks false freshSink
  obtain ⟨lB, lC⟩ :=
    emitRun_linesF pfx (concatChunks chunks).length (concatChunks chunks) le_rfl
  constructor
  · rw [destBytes, destEvents, h]
    simp [freshSink, hB, lB, linesSplit]
  · rw [destEvents, h]
    simp [freshSink, hC, lC, linesSplit]

/-- Claim C2: for every byte sequence `data` and every splitting of
`data` into chunks, feeding the chunks one `Write` call at a time to a
fresh prefixWriter over an all-accepting destination delivers
byte-for-byte the same destination output as one single `Write` call
with all of `data`. -/
theorem chunking_invariant (pfx data : List Nat) (chunks : List (List Nat))
    (h : concatChunks chunks = data) :
    destBytes pfx chunks = destBytes pfx [data] := by
  obtain ⟨e1, h1, h1b, h1c⟩ := feed_allok pfx chunks false freshSink
  obtain ⟨e2, h2, h2b, h2c⟩ := feed_allok pfx [data] false freshSink
  rw [destBytes, destEvents, h1, destBytes, destEvents, h2]
  simp only [freshSink, List.nil_append]
  rw [h1b, h2b]
  simp [concatChunks, h]

/-- Witness for C2 at a concrete split of "hel\n" into three chunks. -/
theorem chunking_invariant_witness :
    destBytes [35] [[104, 101], [108, 10], []] = destBytes [35] [[104, 101, 108, 10]] :=
  chunking_invariant [35] [104, 101, 108, 10] [[104, 101], [108, 10], []] (by decide)

theorem destEvents_two_lines (pfx : List Nat) :
    destEvents pfx [[97, 10, 98, 10]] =
      [⟨true, pfx⟩, ⟨false, [97, 10]⟩, ⟨true, pfx⟩, ⟨false, [98, 10]⟩] :=
  rfl

/-- Claim C5: writing "a\nb\n" in one `Write` call to a fresh
prefixWriter emits exactly prefix, "a\n", prefix, "b\n" to the
destination: the newline inside the call resets the mid-line state, so
the following span gets its own prefix within the same call. -/
theorem two_lines_two_pfx (pfx : List Nat) :
    destEvents pfx [[97, 10, 98, 10]] =
      [⟨true, pfx⟩, ⟨false, [97, 10]⟩, ⟨true, pfx⟩, ⟨false, [98, 10]⟩] ∧
    destBytes pfx [[97, 10, 98, 10]] = pfx ++ [97, 10] ++ pfx ++ [98, 10] := by
  refine ⟨destEvents_two_lines pfx, ?_⟩
  rw [destBytes, destEvents_two_lines]
  simp [bytesOf, List.append_assoc]

theorem destEvents_hello_world (pfx : List Nat) :
    destEvents pfx [[104, 101, 108, 108, 111], [119, 111, 114, 108, 100, 10]] =
      [⟨true, pfx⟩, ⟨false, [104, 101, 108, 108, 111]⟩,
       ⟨false, [119, 111, 114, 108, 100, 10]⟩] :=
  rfl

/-- Claim C6: writing "hello" and then "world\n" in two successive
`Write` calls to the same fresh prefixWriter emits exactly prefix,
"hello", "world\n": after a call ending without a newline the writer is
mid-line and the prefix is suppressed on the next call. -/
theorem split_line_one_pfx (pfx : List Nat) :
    destEvents pfx [[104, 101, 108, 108, 111], [119, 111, 114, 108, 100, 10]] =
      [⟨true, pfx⟩, ⟨false, [104, 101, 108, 108, 111]⟩,
       ⟨false, [119, 111, 114, 108, 100, 10]⟩] ∧
    destBytes pfx [[104, 101, 108, 108, 111], [119, 111, 114, 108, 100, 10]] =
      pfx ++ [104, 101, 108, 108, 111, 119, 111, 114, 108, 100, 10] := by
  refine ⟨destEvents_hello_world pfx, ?_⟩
  rw [destBytes, destEvents_hello_world]
  simp [bytesOf]

/-! ### The `Write` contract over an arbitrary (possibly failing)
destination: returned count and immediate error propagation -/

theorem writeOnce_char (sched : List WResp) (pfx : List Nat) (started : Bool)
    (s : SinkSt) (p : List Nat) :
    ∀ (n : Nat) (e : Bool) (s1 : SinkSt),
      writeOnce sched pfx started s p = ((n, e), s1) →
      ∃ ext : List Ev,
        s1.out = s.out ++ ext ∧ s1.k = s.k + ext.length ∧
        n ≤ p.length ∧
        contentBytes ext = p.take n ∧
        (e = false → n = p.length ∧
          ∀ j, j < ext.length → schedResp sched (s.k + j) = WResp.ok) ∧
        (e = true → 1 ≤ ext.length ∧
          (∃ a, schedResp sched (s.k + (ext.length - 1)) = WResp.fail a) ∧
          ∀ j, j + 1 < ext.length → schedResp sched (s.k + j) = WResp.ok) := by
  intro n e s1 h
  cases started with
  | true =>
      simp only [writeOnce, if_pos] at h
      rcases hr : schedResp sched s.k with _ | a
      · simp [sinkWrite, hr] at h
        obtain ⟨⟨hn, he⟩, hs⟩ := h
        subst hn; subst he; subst hs
        refine ⟨[⟨false, p⟩], by simp, by simp, le_rfl,
          by simp [contentBytes], ?_, by simp⟩
        intro _
        refine ⟨rfl, ?_⟩
        intro j hj
        simp only [List.length_cons, List.length_nil] at hj
        have hj0 : j = 0 := by omega
        subst hj0
        simpa using hr
      · simp [sinkWrite, hr] at h
        obtain ⟨⟨hn, he⟩, hs⟩ := h
        subst hn; subst he; subst hs
        refine ⟨[⟨false, p.take (min a p.length)⟩], by simp, by simp,
          min_le_right a p.length, by simp [contentBytes], by simp, ?_⟩
        intro _
        refine ⟨by simp, ⟨a, by simpa using hr⟩, ?_⟩
        intro j hj
        simp only [List.length_cons, List.length_nil] at hj
        omega
  | false =>
      simp only [writeOnce, if_neg] at h
      rcases hr : schedResp sched s.k with _ | a
      · rcases hr2 : schedResp sched (s.k + 1) with _ | a2
        · simp [sinkWrite, hr, hr2] at h
          obtain ⟨⟨hn, he⟩, hs⟩ := h
          subst hn; subst he; subst hs
          refine ⟨[⟨true, pfx⟩, ⟨false, p⟩], by simp, by simp, le_rfl,
            by simp [contentBytes], ?_, by simp⟩
          intro _
          refine ⟨rfl, ?_⟩
          intro j hj
          simp only [List.length_cons, List.length_nil] at hj
          have hj01 : j = 0 ∨ j = 1 := by omega
          rcases hj01 with h0 | h1
          · subst h0; simpa using hr
          · subst h1; simpa using hr2
        · simp [sinkWrite, hr, hr2] at h
          obtain ⟨⟨hn, he⟩, hs⟩ := h
          subst hn; subst he; subst hs
          refine ⟨[⟨true, pfx⟩, ⟨false, p.take (min a2 p.length)⟩], by simp, by simp,
            min_le_right a2 p.length, by simp [contentBytes], by simp, ?_⟩
          intro _
          refine ⟨by simp, ⟨a2, by simpa using hr2⟩, ?_⟩
          intro j hj
          simp only [List.length_cons, List.length_nil] at hj
          have h0 : j = 0 := by omega
          subst h0
          simpa using hr
      · simp [sinkWrite, hr] at h
        obtain ⟨⟨hn, he⟩, hs⟩ := h
        subst hn; subst he; subst hs
        refine ⟨[⟨true, pfx.take (min a pfx.length)⟩], by simp, by simp,
          Nat.zero_le _, by simp [contentBytes], by simp, ?_⟩
        intro _
        refine ⟨by simp, ⟨a, by simpa using hr⟩, ?_⟩
        intro j hj
        simp only [List.length_cons, List.length_nil] at hj
        omega

theorem writeLoopF_char (sched : List WResp) (pfx : List Nat) :
    ∀ (fuel : Nat) (rem : List Nat), rem.length ≤ fuel →
      ∀ (started : Bool) (s : SinkSt) (consumed : Nat) (n : Nat) (e : Bool)
        (st1 : Bool) (s1 : SinkSt),
        writeLoopF sched pfx fuel started s rem consumed = ((n, e), st1, s1) →
        ∃ ext : List Ev,
          s1.out = s.out ++ ext ∧ s1.k = s.k + ext.length ∧
          consumed ≤ n ∧ n - consumed ≤ rem.length ∧
          contentBytes ext = rem.take (n - consumed) ∧
          (e = false → n = consumed + rem.length ∧
            ∀ j, j < ext.length → schedResp sched (s.k + j) = WResp.ok) ∧
          (e = true → 1 ≤ ext.length ∧
            (∃ a, schedResp sched (s.k + (ext.length - 1)) = WResp.fail a) ∧
            ∀ j, j + 1 < ext.length → schedResp sched (s.k + j) = WResp.ok) := by
  intro fuel
  induction fuel with
  | zero =>
      intro rem hlen started s consumed n e st1 s1 h
      cases rem with
      | nil =>
          simp [writeLoopF] at h
          obtain ⟨⟨hn, he⟩, hst, hs⟩ := h
          subst hn; subst he; subst hs
          exact ⟨[], by simp, by simp, le_rfl, by simp, by simp [contentBytes],
            by simp, by simp⟩
      | cons b bs => simp at hlen
  | succ fuel ih =>
      intro rem hlen started s consumed n e st1 s1 h
      cases rem with
      | nil =>
          simp [writeLoopF] at h
          obtain ⟨⟨hn, he⟩, hst, hs⟩ := h
          subst hn; subst he; subst hs
          exact ⟨[], by simp, by simp, le_rfl, by simp, by simp [contentBytes],
            by simp, by simp⟩
      | cons b bs =>
          simp only [List.length_cons] at hlen ⊢
          rw [writeLoopF_cons] at h
          rcases hsp : splitSpan (b :: bs) with ⟨span, ro⟩
          simp only [hsp] at h
          cases ro with
          | none =>
              obtain ⟨hspan, hnl⟩ := splitSpan_eq_none hsp
              subst hspan
              rcases hwo : writeOnce sched pfx started s (b :: bs) with ⟨⟨n0, e0⟩, s0⟩
              simp only [hwo, Prod.mk.injEq] at h
              obtain ⟨⟨hn, he⟩, hst, hs⟩ := h
              subst hn; subst he; subst hs
              obtain ⟨ext, ho, hk, hnle, hcb, hfalse, htrue⟩ :=
                writeOnce_char sched pfx started s (b :: bs) n0 e0 s0 hwo
              simp only [List.length_cons] at hnle
              refine ⟨ext, ho, hk, by omega, by omega, ?_, ?_, htrue⟩
              · simpa [Nat.add_sub_cancel_left] using hcb
              · intro h0
                obtain ⟨hn0, hok⟩ := hfalse h0
                simp only [List.length_cons] at hn0
                exact ⟨by omega, hok⟩
          | some rest =>
              obtain ⟨hl, m, hm, hnm⟩ := splitSpan_eq_some hsp
              have hspan1 : 1 ≤ span.length := by rw [hm]; simp
              have hlenrem : bs.length + 1 = span.length + rest.length := by
                have hcl := congrArg List.length hl
                simpa [List.length_append] using hcl
              rcases hwo : writeOnce sched pfx started s span with ⟨⟨n0, e0⟩, s0⟩
              simp only [hwo] at h
              obtain ⟨ext1, ho1, hk1, hn0le, hcb1, hfalse1, htrue1⟩ :=
                writeOnce_char sched pfx started s span n0 e0 s0 hwo
              cases e0 with
              | true =>
                  simp only [if_true, Prod.mk.injEq] at h
                  obtain ⟨⟨hn, he⟩, hst, hs⟩ := h
                  subst hn; subst he; subst hs
                  obtain ⟨hlen1, hfail, hok⟩ := htrue1 rfl
                  refine ⟨ext1, ho1, hk1, by omega, by omega, ?_, by simp, ?_⟩
                  · have htk : (b :: bs).take n0 = span.take n0 := by
                      rw [hl]
                      exact List.take_append_of_le_length hn0le
                    simpa [Nat.add_sub_cancel_left, htk] using hcb1
                  · intro _
                    exact ⟨hlen1, hfail, hok⟩
              | false =>
                  obtain ⟨hn0, hok1⟩ := hfalse1 rfl
                  simp only [Bool.false_eq_true, if_false] at h
                  have hlen2 : rest.length ≤ fuel := by omega
                  obtain ⟨ext2, ho2, hk2, hc2, hr2le, hcb2, hfalse2, htrue2⟩ :=
                    ih rest hlen2 false s0 (consumed + span.length) n e st1 s1 h
                  refine ⟨ext1 ++ ext2, ?_, ?_, by omega, by omega, ?_, ?_, ?_⟩
                  · rw [ho2, ho1, List.append_assoc]
                  · rw [hk2, hk1, List.length_append, Nat.add_assoc]
                  · have hcb1c : contentBytes ext1 = span := by
                      rw [hcb1, hn0, List.take_length]
                    rw [contentBytes_append, hcb1c, hcb2, hl]
                    have hsub : n - consumed =
                        span.length + (n - (consumed + span.length)) := by omega
                    rw [hsub, List.take_append]
                  · intro hef
                    obtain ⟨hn2, hok2⟩ := hfalse2 hef
                    constructor
                    · omega
                    · intro j hj
                      rw [List.length_append] at hj
                      by_cases hjc : j < ext1.length
                      · exact hok1 j hjc
                      · have hj2 : j - ext1.length < ext2.length := by omega
                        have hx := hok2 (j - ext1.length) hj2
                        have heq : s0.k + (j - ext1.length) = s.k + j := by
                          rw [hk1]; omega
                        rwa [heq] at hx
                  · intro het
                    obtain ⟨hl2, ⟨a, hfail2⟩, hok2⟩ := htrue2 het
                    refine ⟨?_, ⟨a, ?_⟩, ?_⟩
                    · rw [List.length_append]; omega
                    · have heq : s0.k + (ext2.length - 1) =
                          s.k + ((ext1 ++ ext2).length - 1) := by
                        rw [hk1, List.length_append]; omega
                      rwa [heq] at hfail2
                    · intro j hj
                      rw [List.length_append] at hj
                      by_cases hjc : j < ext1.length
                      · exact hok1 j hjc
                      · have hj2 : (j - ext1.length) + 1 < ext2.length := by omega
                        have hx := hok2 (j - ext1.length) hj2
                        have heq : s0.k + (j - ext1.length) = s.k + j := by
                          rw [hk1]; omega
                        rwa [heq] at hx

/-- Claim C7: `prefixWriter.Write` returns the count of input bytes
forwarded, excluding injected prefix bytes: the content bytes the
destination received during the call are exactly `p.take n`, and on
success `n = p.length`.  If the destination rejects a write mid-scan,
`Write` returns that error immediately: the failing destination write
is the last write the call performs, every earlier write of the call
succeeded, and no later span of `data` is processed. -/
theorem write_result_contract (sched : List WResp) (pfx : List Nat)
    (started : Bool) (s : SinkSt) (p : List Nat) (n : Nat) (e : Bool)
    (st1 : Bool) (s1 : SinkSt)
    (h : pwWrite sched pfx started s p = ((n, e), st1, s1)) :
    ∃ ext : List Ev,
      s1.out = s.out ++ ext ∧ s1.k = s.k + ext.length ∧
      n ≤ p.length ∧
      contentBytes ext = p.take n ∧
      (e = false → n = p.length ∧
        ∀ j, j < ext.length → schedResp sched (s.k + j) = WResp.ok) ∧
      (e = true → 1 ≤ ext.length ∧
        (∃ a, schedResp sched (s.k + (ext.length - 1)) = WResp.fail a) ∧
        ∀ j, j + 1 < ext.length → schedResp sched (s.k + j) = WResp.ok) := by
  obtain ⟨ext, h1, h2, h3, h4, h5, h6, h7⟩ :=
    writeLoopF_char sched pfx p.length p le_rfl started s 0 n e st1 s1 h
  refine ⟨ext, h1, h2, by omega, by simpa using h5, ?_, h7⟩
  intro h0
  obtain ⟨hn, hok⟩ := h6 h0
  exact ⟨by omega, hok⟩

/-- Witness for C7: the destination accepts the prefix write and then
fails the content write of the first span "ab\n" after one byte, so
`Write` on "ab\ncd" returns count 1 with the error, having delivered
exactly the first input byte and stopped. -/
theorem write_result_contract_witness :
    ∃ ext : List Ev,
      (⟨[⟨true, [65]⟩, ⟨false, [97]⟩], 2⟩ : SinkSt).out = freshSink.out ++ ext ∧
      (⟨[⟨true, [65]⟩, ⟨false, [97]⟩], 2⟩ : SinkSt).k = freshSink.k + ext.length ∧
      1 ≤ ([97, 98, 10, 99, 100] : List Nat).length ∧
      contentBytes ext = ([97, 98, 10, 99, 100] : List Nat).take 1 ∧
      (true = false → 1 = ([97, 98, 10, 99, 100] : List Nat).length ∧
        ∀ j, j < ext.length →
          schedResp [WResp.ok, WResp.fail 1] (freshSink.k + j) = WResp.ok) ∧
      (true = true → 1 ≤ ext.length ∧
        (∃ a, schedResp [WResp.ok, WResp.fail 1]
            (freshSink.k + (ext.length - 1)) = WResp.fail a) ∧
        ∀ j, j + 1 < ext.length →
          schedResp [WResp.ok, WResp.fail 1] (freshSink.k + j) = WResp.ok) :=
  write_result_contract [WResp.ok, WResp.fail 1] [65] false freshSink
    [97, 98, 10, 99, 100] 1 true false ⟨[⟨true, [65]⟩, ⟨false, [97]⟩], 2⟩ rfl

/-! ### The orchestrator (main.go lines 20-115)

Text is modelled as `List Char`.  The four `git` invocations the
program can make are abstracted into an environment `GitEnv` giving
each command either its captured standard output (`some out`) or a
failure (`none`, covering non-zero exit, spawn failure and the
one-minute deadline of `runCmdDefaultTimeout`), since `runCmd` treats
all of these alike: report and `os.Exit(1)`. -/

/-- Go `unicode.IsSpace` restricted to the Latin-1 range (space, \t,
\n, \v, \f, \r, NEL U+0085, NBSP U+00A0) — the whitespace that
`strings.TrimSpace` / `bytes.TrimSpace` strip; ASCII inputs only ever
meet the first six. -/
def isSpaceGo (c : Char) : Bool :=
  c = ' ' || c = '\t' || c = '\n' || c = Char.ofNat 11 || c = Char.ofNat 12 ||
    c = '\r' || c = Char.ofNat 133 || c = Char.ofNat 160

/-- `strings.TrimSpace` / `bytes.TrimSpace` (main.go lines 60, 65, 73). -/
def trimSpace (l : List Char) : List Char :=
  ((l.dropWhile isSpaceGo).reverse.dropWhile isSpaceGo).reverse

/-- `strings.HasPrefix pat l` (main.go line 74). -/
def startsWith : List Char → List Char → Bool
  | [], _ => true
  | _ :: _, [] => false
  | p :: ps, c :: cs => if p = c then startsWith ps cs else false

/-- The literal part of `defaultBranchRegexp` (main.go line 50). -/
def headBranchMarker : List Char := "HEAD branch: ".toList

/-- The capture of `(.*)`: everything up to the next newline (Go's `.`
does not match a newline and `(.*)` is greedy). -/
def takeUntilNL (l : List Char) : List Char :=
  l.takeWhile (fun c => if c = '\n' then false else true)

/-- Leftmost match of `HEAD branch: (.*)` (main.go lines 50-54):
scan for the first occurrence of the literal marker and return the
capture group, or `none` when the pattern does not occur. -/
def findAfterMarker : List Char → Option (List Char)
  | [] => none
  | c :: cs =>
      if startsWith headBranchMarker (c :: cs) then
        some (takeUntilNL ((c :: cs).drop headBranchMarker.length))
      else findAfterMarker cs

/-- `getDefaultBranch`'s parse (main.go lines 52-61): the trimmed
capture, or `none` when `FindSubmatch` fails (the error-exit case). -/
def findDefaultBranch (out : List Char) : Option (List Char) :=
  (findAfterMarker out).map trimSpace

/-- `bufio.MaxScanTokenSize`: the largest token `bufio.Scanner`
buffers before giving up with `ErrTooLong`. -/
def maxScanTokenSize : Nat := 65536

/-- One step of `bufio.ScanLines`: the text before the first newline
and, when a newline was found, the rest after it. -/
def splitLineC : List Char → List Char × Option (List Char)
  | [] => ([], none)
  | c :: cs =>
      if c = '\n' then ([], some cs)
      else (c :: (splitLineC cs).1, (splitLineC cs).2)

/-- `bufio.ScanLines` drops one trailing carriage return from a line. -/
def dropCR (l : List Char) : List Char :=
  if l.getLast? = some '\r' then l.dropLast else l

/-- `bufio.Scanner` with `ScanLines` over an in-memory reader
(main.go lines 70-77): the tokens produced and whether the scan ended
in an error.  A (partial) line of `maxScanTokenSize` or more cannot fit
the scanner's buffer, so scanning stops there with `ErrTooLong`; the
tokens before it are still delivered.  `fuel` only makes the recursion
structural; any `fuel ≥ data.length` behaves like the scanner. -/
def scanLinesF : Nat → List Char → List (List Char) × Bool
  | _, [] => ([], false)
  | 0, _ :: _ => ([], false)
  | fuel + 1, c :: cs =>
      match splitLineC (c :: cs) with
      | (seg, none) =>
          if maxScanTokenSize ≤ seg.length then ([], true)
          else ([dropCR seg], false)
      | (seg, some rest) =>
          if maxScanTokenSize ≤ seg.length then ([], true)
          else ((dropCR seg) :: (scanLinesF fuel rest).1, (scanLinesF fuel rest).2)

/-- Scan a whole captured output. -/
def scanTokens (out : List Char) : List (List Char) × Bool :=
  scanLinesF out.length out

/-- The marker excluding the current branch (main.go line 74). -/
def starMarker : List Char := "* ".toList

/-- The accumulation loop of `getMergedBranches` (main.go lines 71-77):
trim each scanned line and keep every line not marked `"* "`. -/
def collectBranches : List (List Char) → List (List Char) → List (List Char)
  | acc, [] => acc
  | acc, t :: ts =>
      if startsWith starMarker (trimSpace t) then collectBranches acc ts
      else collectBranches (acc ++ [trimSpace t]) ts

/-- `getMergedBranches` applied to the captured listing (main.go lines
68-82): the candidate branches and whether the scanner reported an
error (which the function only logs). -/
def getMergedBranchesFrom (out : List Char) : List (List Char) × Bool :=
  (collectBranches [] (scanTokens out).1, (scanTokens out).2)

/-- The four shapes of `git` invocation the program performs. -/
inductive Cmd where
  | revParse : Cmd
  | remoteShow : Cmd
  | branchMerged : Cmd
  | branchDelete : List Char → Cmd
deriving DecidableEq

/-- The environment: what each external invocation returns.  `none`
models `cmd.Run` failing (non-zero exit, spawn failure, deadline). -/
structure GitEnv where
  revParse : Option (List Char)
  remoteShow : Option (List Char)
  branchMerged : Option (List Char)
  branchDelete : List Char → Option (List Char)

/-- Look up the environment's response for an invocation. -/
def envResp (env : GitEnv) : Cmd → Option (List Char)
  | Cmd.revParse => env.revParse
  | Cmd.remoteShow => env.remoteShow
  | Cmd.branchMerged => env.branchMerged
  | Cmd.branchDelete b => env.branchDelete b

/-- The command name; `exec.Cmd.String` prints the resolved path,
modelled here as the bare name. -/
def gitName : List Char := "git".toList

/-- The argument list of each invocation (main.go lines 53, 64, 69, 85). -/
def cmdArgs : Cmd → List (List Char)
  | Cmd.revParse => ["rev-parse".toList, "--abbrev-ref".toList, "HEAD".toList]
  | Cmd.remoteShow => ["remote".toList, "show".toList, "origin".toList]
  | Cmd.branchMerged => ["branch".toList, "--merged".toList]
  | Cmd.branchDelete b => ["branch".toList, "-d".toList, b]

/-- Go's `exec.Cmd.String`: the path and the arguments joined by
single spaces, with no quoting or escaping of any kind. -/
def goCmdString (name : List Char) (args : List (List Char)) : List Char :=
  args.foldl (fun acc a => acc ++ ' ' :: a) name

/-- The `[cmd] ...` line echoed in verbose mode (main.go line 98). -/
def cmdEcho (c : Cmd) : List Char :=
  "[cmd] ".toList ++ goCmdString gitName (cmdArgs c)

/-- The `[error] error running command ...` diagnostic (main.go line 110). -/
def runErrMsg (c : Cmd) : List Char :=
  "[error] error running command ".toList ++ goCmdString gitName (cmdArgs c)

/-- Observable state threaded through a run: invocations performed,
stdout lines and stderr lines, in order. -/
structure RunSt where
  trace : List Cmd
  stdoutLines : List (List Char)
  stderrLines : List (List Char)
deriving DecidableEq

/-- Final observable outcome of a run. -/
structure Outcome where
  trace : List Cmd
  stdoutLines : List (List Char)
  stderrLines : List (List Char)
  exitCode : Nat
deriving DecidableEq

/-- `runCmd` (main.go lines 94-115): echo the command when verbose,
invoke it, and either hand back its captured stdout or report the
failure (the caller then exits 1). -/
def runCmdM (verbose : Bool) (env : GitEnv) (st : RunSt) (c : Cmd) :
    RunSt × Option (List Char) :=
  let st1 : RunSt :=
    ⟨st.trace ++ [c],
     st.stdoutLines ++ (if verbose then [cmdEcho c] else []),
     st.stderrLines⟩
  match envResp env c with
  | some out => (st1, some out)
  | none => (⟨st1.trace, st1.stdoutLines, st1.stderrLines ++ [runErrMsg c]⟩, none)

/-- `[error] failed to extract default branch` (main.go line 56). -/
def parseErrMsg : List Char := "[error] failed to extract default branch".toList

/-- `[error] scanner error ...` (main.go line 79); the underlying
error text is abstracted away. -/
def scanErrMsg : List Char := "[error] scanner error".toList

/-- The refusal diagnostic (main.go line 32). -/
def refuseMsg (cur d : List Char) : List Char :=
  "[error] Refusing to run `git-clean` without being on the default branch. Currently on branch ".toList ++
    cur ++ ". Default branch ".toList ++ d ++ ".".toList

/-- The `[would delete]` tag (main.go line 41). -/
def wouldDeleteMsg : List Char := "[would delete]".toList

/-- The `[deleting]` tag (main.go line 39). -/
def deletingMsg : List Char := "[deleting]".toList

/-- The per-branch loop of `main` (main.go lines 38-47): print the
tag and the branch, and in force mode run `git branch -d`, whose
failure aborts the run with exit 1. -/
def deleteLoop (force verbose : Bool) (env : GitEnv) :
    RunSt → List (List Char) → Outcome
  | st, [] => ⟨st.trace, st.stdoutLines, st.stderrLines, 0⟩
  | st, b :: bs =>
      let msg := if force then deletingMsg else wouldDeleteMsg
      let st1 : RunSt :=
        ⟨st.trace, st.stdoutLines ++ [msg ++ ' ' :: b], st.stderrLines⟩
      if force then
        match runCmdM verbose env st1 (Cmd.branchDelete b) with
        | (st2, some _) => deleteLoop force verbose env st2 bs
        | (st2, none) => ⟨st2.trace, st2.stdoutLines, st2.stderrLines, 1⟩
      else deleteLoop force verbose env st1 bs

/-- `main` (main.go lines 25-48): current branch, default branch,
the guard, the merged-branch enumeration and the deletion loop.
Every `runCmd` failure exits 1 on the spot; a scanner error inside
`getMergedBranches` is only logged to stderr. -/
def mainModel (force verbose : Bool) (env : GitEnv) : Outcome :=
  match runCmdM verbose env ⟨[], [], []⟩ Cmd.revParse with
  | (st, none) => ⟨st.trace, st.stdoutLines, st.stderrLines, 1⟩
  | (st, some rpOut) =>
      match runCmdM verbose env st Cmd.remoteShow with
      | (st1, none) => ⟨st1.trace, st1.stdoutLines, st1.stderrLines, 1⟩
      | (st1, some rsOut) =>
          match findDefaultBranch rsOut with
          | none => ⟨st1.trace, st1.stdoutLines, st1.stderrLines ++ [parseErrMsg], 1⟩
          | some defaultBranch =>
              if trimSpace rpOut = defaultBranch then
                match runCmdM verbose env st1 Cmd.branchMerged with
                | (st2, none) => ⟨st2.trace, st2.stdoutLines, st2.stderrLines, 1⟩
                | (st2, some bmOut) =>
                    match getMergedBranchesFrom bmOut with
                    | (branches, scanErr) =>
                        deleteLoop force verbose env
                          (if scanErr then
                            ⟨st2.trace, st2.stdoutLines,
                             st2.stderrLines ++ [scanErrMsg]⟩
                           else st2)
                          branches
              else
                ⟨st1.trace, st1.stdoutLines,
                 st1.stderrLines ++ [refuseMsg (trimSpace rpOut) defaultBranch], 1⟩

example : findDefaultBranch "origin\n  HEAD branch: main\n  other\n".toList =
    some "main".toList := by decide

example : getMergedBranchesFrom "* main\nfeature-a\nfeature-b\n".toList =
    (["feature-a".toList, "feature-b".toList], false) := by decide

/-- Candidates produced by `getMergedBranches` never carry the
`"* "` marker: the marked line is always excluded. -/
theorem collectBranches_no_star :
    ∀ (ts acc : List (List Char)),
      (∀ x ∈ acc, startsWith starMarker x = false) →
      ∀ l ∈ collectBranches acc ts, startsWith starMarker l = false := by
  intro ts
  induction ts with
  | nil => intro acc hacc l hl; exact hacc l hl
  | cons t ts ih =>
      intro acc hacc l hl
      by_cases hst : startsWith starMarker (trimSpace t) = true
      · rw [collectBranches, if_pos hst] at hl
        exact ih acc hacc l hl
      · rw [collectBranches, if_neg hst] at hl
        refine ih (acc ++ [trimSpace t]) ?_ l hl
        intro x hx
        rcases List.mem_append.mp hx with hx1 | hx2
        · exact hacc x hx1
        · have hxe : x = trimSpace t := by simpa using hx2
          subst hxe
          simpa using hst

/-- The concrete environment of the orchestrator scenario: on branch
main, default branch main, merged listing "* main\nfeature-a\nfeature-b\n",
deletions succeed. -/
def env3 : GitEnv :=
  ⟨some "main\n".toList, some "HEAD branch: main\n".toList,
   some "* main\nfeature-a\nfeature-b\n".toList, fun _ => some []⟩

/-- Claim C3: with listing "* main\nfeature-a\nfeature-b\n" and
current = default = main, dry-run prints `[would delete] feature-a`
and `[would delete] feature-b` and invokes no delete; force mode
prints `[deleting] ...` and invokes exactly the two deletes; and a
line carrying the `"* "` marker is never a candidate. -/
theorem orchestrator_scenario :
    mainModel false false env3 =
      ⟨[Cmd.revParse, Cmd.remoteShow, Cmd.branchMerged],
       ["[would delete] feature-a".toList, "[would delete] feature-b".toList],
       [], 0⟩ ∧
    mainModel true false env3 =
      ⟨[Cmd.revParse, Cmd.remoteShow, Cmd.branchMerged,
        Cmd.branchDelete "feature-a".toList, Cmd.branchDelete "feature-b".toList],
       ["[deleting] feature-a".toList, "[deleting] feature-b".toList],
       [], 0⟩ ∧
    (∀ out, ∀ l ∈ (getMergedBranchesFrom out).1,
      startsWith starMarker l = false) := by
  refine ⟨by decide, by decide, ?_⟩
  intro out l hl
  exact collectBranches_no_star (scanTokens out).1 [] (by simp) l hl

/-- Witness for C3's universal part at a concrete listing. -/
theorem orchestrator_scenario_witness :
    startsWith starMarker "feature-a".toList = false :=
  orchestrator_scenario.2.2 "* main\nfeature-a\n".toList
    "feature-a".toList (by decide)

/-- Claim C4: whenever the trimmed rev-parse output differs from the
parsed default branch, the run stops right after the two discovery
commands with exit code 1: `git branch --merged` is never invoked and
no delete is invoked, whatever the force flag. -/
theorem wrong_branch_aborts (force verbose : Bool) (env : GitEnv)
    (r m d : List Char) (h1 : env.revParse = some r)
    (h2 : env.remoteShow = some m) (h3 : findDefaultBranch m = some d)
    (h4 : trimSpace r ≠ d) :
    mainModel force verbose env =
      ⟨[Cmd.revParse, Cmd.remoteShow],
       (if verbose then [cmdEcho Cmd.revParse, cmdEcho Cmd.remoteShow] else []),
       [refuseMsg (trimSpace r) d], 1⟩ ∧
    (mainModel force verbose env).exitCode = 1 ∧
    Cmd.branchMerged ∉ (mainModel force verbose env).trace ∧
    ∀ b, Cmd.branchDelete b ∉ (mainModel force verbose env).trace := by
  have hmain : mainModel force verbose env =
      ⟨[Cmd.revParse, Cmd.remoteShow],
       (if verbose then [cmdEcho Cmd.revParse, cmdEcho Cmd.remoteShow] else []),
       [refuseMsg (trimSpace r) d], 1⟩ := by
    cases verbose <;> simp [mainModel, runCmdM, envResp, h1, h2, h3, h4]
  refine ⟨hmain, ?_, ?_, ?_⟩
  · rw [hmain]
  · rw [hmain]; simp
  · intro b; rw [hmain]; simp

/-- The concrete environment for C4's witness: on feature-x with
default branch main. -/
def env4 : GitEnv :=
  ⟨some "feature-x\n".toList, some "HEAD branch: main\n".toList,
   some "".toList, fun _ => some []⟩

/-- Witness for C4 at the concrete feature-x/main environment. -/
theorem wrong_branch_aborts_witness :
    mainModel false false env4 =
      ⟨[Cmd.revParse, Cmd.remoteShow],
       (if false then [cmdEcho Cmd.revParse, cmdEcho Cmd.remoteShow] else []),
       [refuseMsg (trimSpace "feature-x\n".toList) "main".toList], 1⟩ ∧
    (mainModel false false env4).exitCode = 1 ∧
    Cmd.branchMerged ∉ (mainModel false false env4).trace ∧
    ∀ b, Cmd.branchDelete b ∉ (mainModel false false env4).trace :=
  wrong_branch_aborts false false env4 "feature-x\n".toList
    "HEAD branch: main\n".toList "main".toList rfl rfl (by decide) (by decide)

/-! ### The scanner on an overlong line, and the error taxonomy -/

theorem splitLineC_no_nl : ∀ l : List Char, '\n' ∉ l → splitLineC l = (l, none) := by
  intro l
  induction l with
  | nil => intro _; rfl
  | cons c cs ih =>
      intro h
      have hc : ¬ c = '\n' := fun he => h (by rw [he]; exact List.mem_cons_self _ _)
      have hcs : '\n' ∉ cs := fun hm => h (List.mem_cons_of_mem _ hm)
      simp [splitLineC, hc, ih hcs]

theorem splitLineC_append : ∀ (l r : List Char), '\n' ∉ l →
    splitLineC (l ++ '\n' :: r) = (l, some r) := by
  intro l r
  induction l with
  | nil => intro _; simp [splitLineC]
  | cons c cs ih =>
      intro h
      have hc : ¬ c = '\n' := fun he => h (by rw [he]; exact List.mem_cons_self _ _)
      have hcs : '\n' ∉ cs := fun hm => h (List.mem_cons_of_mem _ hm)
      simp [splitLineC, hc, ih hcs]

theorem scanLinesF_step (f : Nat) (l seg rest : List Char)
    (hsp : splitLineC l = (seg, some rest))
    (hlen : ¬ maxScanTokenSize ≤ seg.length) :
    scanLinesF (f + 1) l =
      ((dropCR seg) :: (scanLinesF f rest).1, (scanLinesF f rest).2) := by
  cases l with
  | nil => simp [splitLineC] at hsp
  | cons c cs => simp [scanLinesF, hsp, hlen]

theorem scanLinesF_stop (f : Nat) (l seg : List Char)
    (hsp : splitLineC l = (seg, none))
    (hlen : maxScanTokenSize ≤ seg.length) :
    scanLinesF (f + 1) l = ([], true) := by
  cases l with
  | nil =>
      simp [splitLineC] at hsp
      subst hsp
      simp [maxScanTokenSize] at hlen
  | cons c cs => simp [scanLinesF, hsp, hlen]

/-- A merged-branches line of 65536 characters: it cannot fit
`bufio.Scanner`'s buffer, so scanning it fails with `ErrTooLong`. -/
def longLine : List Char := List.replicate 65536 'a'

/-- The listing "* main\n" followed by the overlong line. -/
def longListing : List Char := "* main".toList ++ '\n' :: longLine

/-- An environment whose merged-branch listing contains the overlong
line; everything else succeeds. -/
def envLong : GitEnv :=
  ⟨some "main\n".toList, some "HEAD branch: main\n".toList,
   some longListing, fun _ => some []⟩

theorem longLine_length : longLine.length = 65536 :=
  List.length_replicate 65536 'a'

theorem scanTokens_longListing :
    scanTokens longListing = (["* main".toList], true) := by
  have hnl : '\n' ∉ longLine := by
    show '\n' ∉ List.replicate 65536 'a'
    rw [List.mem_replicate]
    rintro ⟨-, h⟩
    exact absurd h (by decide)
  have h1 : splitLineC longListing = ("* main".toList, some longLine) :=
    splitLineC_append _ _ (by decide)
  have h2 : splitLineC longLine = (longLine, none) := splitLineC_no_nl _ hnl
  have hlen : longListing.length = 65542 + 1 := by
    show ("* main".toList ++ '\n' :: longLine).length = 65542 + 1
    rw [List.length_append, List.length_cons, longLine_length]
    decide
  show scanLinesF longListing.length longListing = (["* main".toList], true)
  rw [hlen]
  rw [scanLinesF_step 65542 longListing _ _ h1 (by decide)]
  rw [show (65542 : Nat) = 65541 + 1 from rfl]
  rw [scanLinesF_stop 65541 longLine _ h2 (by rw [longLine_length]; decide)]
  decide

theorem gmb_longListing : getMergedBranchesFrom longListing = ([], true) := by
  simp only [getMergedBranchesFrom, scanTokens_longListing]
  decide

theorem mainModel_scanerr (L : List Char)
    (hgmb : getMergedBranchesFrom L = ([], true)) :
    mainModel false false
      ⟨some "main\n".toList, some "HEAD branch: main\n".toList,
       some L, fun _ => some []⟩ =
      ⟨[Cmd.revParse, Cmd.remoteShow, Cmd.branchMerged], [], [scanErrMsg], 0⟩ := by
  simp [mainModel, runCmdM, envResp, hgmb, deleteLoop]
  decide

theorem mainModel_envLong :
    mainModel false false envLong =
      ⟨[Cmd.revParse, Cmd.remoteShow, Cmd.branchMerged], [], [scanErrMsg], 0⟩ :=
  mainModel_scanerr longListing gmb_longListing

/-- Counterexample to claim C8: a scan failure while processing the
merged-branch listing does not terminate the run: with an overlong
line in the listing the scanner errors, yet the run completes with
exit code 0, only logging the scanner error to stderr. -/
theorem scan_error_not_fatal_cex :
    (scanTokens longListing).2 = true ∧
    (mainModel false false envLong).exitCode = 0 ∧
    scanErrMsg ∈ (mainModel false false envLong).stderrLines := by
  refine ⟨?_, ?_, ?_⟩
  · rw [scanTokens_longListing]
  · rw [mainModel_envLong]
  · rw [mainModel_envLong]; simp

set_option maxRecDepth 4000 in
/-- Claim C8 as amended: every subprocess failure, the default-branch
parse failure and the wrong-branch precondition failure abort the run
immediately with a diagnostic and exit code 1, with nothing run
afterwards; but a scan failure while reading the merged-branch listing
is only reported to stderr and the run continues with the branches
scanned before the failure (completing with exit code 0 when
everything else succeeds). -/
theorem error_fatality_amended :
    (∀ f v env, env.revParse = none →
      mainModel f v env =
        ⟨[Cmd.revParse], (if v then [cmdEcho Cmd.revParse] else []),
         [runErrMsg Cmd.revParse], 1⟩) ∧
    (∀ f v env r, env.revParse = some r → env.remoteShow = none →
      mainModel f v env =
        ⟨[Cmd.revParse, Cmd.remoteShow],
         (if v then [cmdEcho Cmd.revParse, cmdEcho Cmd.remoteShow] else []),
         [runErrMsg Cmd.remoteShow], 1⟩) ∧
    (∀ f v env r m, env.revParse = some r → env.remoteShow = some m →
      findDefaultBranch m = none →
      mainModel f v env =
        ⟨[Cmd.revParse, Cmd.remoteShow],
         (if v then [cmdEcho Cmd.revParse, cmdEcho Cmd.remoteShow] else []),
         [parseErrMsg], 1⟩) ∧
    (∀ f v env r m d, env.revParse = some r → env.remoteShow = some m →
      findDefaultBranch m = some d → trimSpace r ≠ d →
      (mainModel f v env).exitCode = 1 ∧
      ∀ b, Cmd.branchDelete b ∉ (mainModel f v env).trace) ∧
    (∀ f v env r m d, env.revParse = some r → env.remoteShow = some m →
      findDefaultBranch m = some d → trimSpace r = d → env.branchMerged = none →
      mainModel f v env =
        ⟨[Cmd.revParse, Cmd.remoteShow, Cmd.branchMerged],
         (if v then [cmdEcho Cmd.revParse, cmdEcho Cmd.remoteShow,
            cmdEcho Cmd.branchMerged] else []),
         [runErrMsg Cmd.branchMerged], 1⟩) ∧
    (∀ v env r m d bm b bs, env.revParse = some r → env.remoteShow = some m →
      findDefaultBranch m = some d → trimSpace r = d →
      env.branchMerged = some bm →
      getMergedBranchesFrom bm = (b :: bs, false) →
      env.branchDelete b = none →
      mainModel true v env =
        ⟨[Cmd.revParse, Cmd.remoteShow, Cmd.branchMerged, Cmd.branchDelete b],
         ((if v then [cmdEcho Cmd.revParse, cmdEcho Cmd.remoteShow,
            cmdEcho Cmd.branchMerged] else []) ++
           [deletingMsg ++ ' ' :: b] ++
           (if v then [cmdEcho (Cmd.branchDelete b)] else [])),
         [runErrMsg (Cmd.branchDelete b)], 1⟩) ∧
    ((scanTokens longListing).2 = true ∧
      mainModel false false envLong =
        ⟨[Cmd.revParse, Cmd.remoteShow, Cmd.branchMerged], [], [scanErrMsg], 0⟩) := by
  refine ⟨?_, ?_, ?_, ?_, ?_, ?_, ?_, ?_⟩
  · intro f v env h
    cases v <;> simp [mainModel, runCmdM, envResp, h]
  · intro f v env r h1 h2
    cases v <;> simp [mainModel, runCmdM, envResp, h1, h2]
  · intro f v env r m h1 h2 h3
    cases v <;> simp [mainModel, runCmdM, envResp, h1, h2, h3]
  · intro f v env r m d h1 h2 h3 h4
    have hmain : mainModel f v env =
        ⟨[Cmd.revParse, Cmd.remoteShow],
         (if v then [cmdEcho Cmd.revParse, cmdEcho Cmd.remoteShow] else []),
         [refuseMsg (trimSpace r) d], 1⟩ := by
      cases v <;> simp [mainModel, runCmdM, envResp, h1, h2, h3, h4]
    refine ⟨by rw [hmain], ?_⟩
    intro b
    rw [hmain]
    simp
  · intro f v env r m d h1 h2 h3 h4 h5
    cases v <;> simp [mainModel, runCmdM, envResp, h1, h2, h3, h4, h5]
  · intro v env r m d bm b bs h1 h2 h3 h4 h5 hg hd
    cases v <;>
      simp [mainModel, runCmdM, envResp, deleteLoop, h1, h2, h3, h4, h5, hg, hd]
  · rw [scanTokens_longListing]
  · exact mainModel_envLong

/-- An environment where the very first command fails. -/
def envFail : GitEnv := ⟨none, none, none, fun _ => none⟩

/-- Witness for the amended C8 at a concrete failing environment. -/
theorem error_fatality_amended_witness :
    mainModel false false envFail =
      ⟨[Cmd.revParse], (if false then [cmdEcho Cmd.revParse] else []),
       [runErrMsg Cmd.revParse], 1⟩ :=
  error_fatality_amended.1 false false envFail rfl

/-- Claim C9 (a code bug the FIXME at main.go line 96 itself records):
the verbose echo prints Go's `exec.Cmd.String`, which joins the path
and arguments with bare spaces and no quoting, so the echoed line does
not reproduce the invocation: `git branch -d "my branch"` echoes
exactly the same line as the four-argument `git branch -d my branch`. -/
theorem cmd_echo_unquoted :
    cmdEcho (Cmd.branchDelete "my branch".toList) =
      "[cmd] git branch -d my branch".toList ∧
    goCmdString gitName (cmdArgs (Cmd.branchDelete "my branch".toList)) =
      goCmdString gitName
        ["branch".toList, "-d".toList, "my".toList, "branch".toList] := by
  constructor <;> decide

theorem collectBranches_eq : ∀ (ts acc : List (List Char)),
    collectBranches acc ts =
      acc ++ (ts.map trimSpace).filter (fun l => ! startsWith starMarker l) := by
  intro ts
  induction ts with
  | nil => intro acc; simp [collectBranches]
  | cons t ts ih =>
      intro acc
      by_cases hst : startsWith starMarker (trimSpace t) = true
      · rw [collectBranches, if_pos hst]
        simp [ih, hst]
      · have hst2 : startsWith starMarker (trimSpace t) = false := by
          simpa using hst
        rw [collectBranches, if_neg hst]
        simp [ih, hst2, List.append_assoc]

/-- The scenario environment for C10: the listing contains a blank
line between the real candidates. -/
def env10 : GitEnv :=
  ⟨some "main\n".toList, some "HEAD branch: main\n".toList,
   some "* main\nfeature-a\n\nfeature-b\n".toList, fun _ => some []⟩

/-- Claim C10: `getMergedBranches` trims each scanned line and keeps
every non-"* " line unconditionally, so a blank (or whitespace-only)
line yields an empty-string candidate, which the orchestrator reports
and, in force mode, attempts to delete. -/
theorem blank_line_candidates :
    (∀ toks, collectBranches [] toks =
      (toks.map trimSpace).filter (fun l => ! startsWith starMarker l)) ∧
    (∀ l : List Char, (∀ c ∈ l, isSpaceGo c = true) → trimSpace l = []) ∧
    getMergedBranchesFrom "* main\nfeature-a\n\nfeature-b\n".toList =
      (["feature-a".toList, [], "feature-b".toList], false) ∧
    mainModel true false env10 =
      ⟨[Cmd.revParse, Cmd.remoteShow, Cmd.branchMerged,
        Cmd.branchDelete "feature-a".toList, Cmd.branchDelete [],
        Cmd.branchDelete "feature-b".toList],
       ["[deleting] feature-a".toList, "[deleting] ".toList,
        "[deleting] feature-b".toList],
       [], 0⟩ := by
  refine ⟨?_, ?_, by decide, by decide⟩
  · intro toks
    simpa using collectBranches_eq toks []
  · intro l hl
    have h1 : l.dropWhile isSpaceGo = [] :=
      List.dropWhile_eq_nil_iff.mpr (fun x hx => hl x hx)
    simp [trimSpace, h1]

/-- Witness for C10's whitespace-only-line part. -/
theorem blank_line_candidates_witness :
    trimSpace "  ".toList = [] :=
  blank_line_candidates.2.1 "  ".toList (by decide)

end GitClean
